import Mathlib

/-!
Verification of the execution and trace-generation core of the Triton zero-knowledge
virtual machine (`triton-vm/src/program.rs`).

The `Program` representation, its binary codec, and the four execution drivers are
translated from `program.rs`.  The instruction set, the VM state machine, and the
algebraic execution trace recorder live in modules that are not part of the excerpt
(`instruction.rs`, `vm.rs`, `aet.rs`); those are modelled from the specification, as
marked on each such definition.
-/

deriving instance DecidableEq for Except

/-- The prime of the base field used throughout: 2^64 - 2^32 + 1. -/
def bfePrime : Nat := 18446744069414584321

/-- A base-field element, modelled as a natural number below the field prime.
`BFieldElement::new` reduces its input modulo the prime; `value()` is `Fin.val`. -/
abbrev BFieldElement := Fin bfePrime

/-- `BFieldElement::new`: canonical representative of `v` in the base field. -/
def BFieldElement.new (v : Nat) : BFieldElement :=
  ⟨v % bfePrime, Nat.mod_lt v (by norm_num [bfePrime])⟩

/-- Modelled from the spec: the instruction set enumeration (`instruction.rs`, not in
the excerpt).  Spec §3: a closed set of variants, each either single-word or
double-word (carrying one field-element argument).  The exact variant list is left
open by the spec (§9), so a representative subset faithful to the codec contract is
used: `push` and `call` carry an unconstrained field-element argument, `dup` carries
a constrained argument (one of 16 stack positions), the rest are single-word. -/
inductive Instruction where
  | push (a : BFieldElement)
  | call (a : BFieldElement)
  | dup (a : BFieldElement)
  | nop
  | skiz
  | assert
  | halt
  | eq
  | hash
deriving DecidableEq, Repr

/-- Modelled from the spec: `Instruction::has_arg` — true exactly for the
argument-carrying (double-word) variants. -/
def Instruction.has_arg : Instruction → Bool
  | .push _ => true
  | .call _ => true
  | .dup _ => true
  | _ => false

/-- Modelled from the spec: `Instruction::size` — 2 words iff the variant carries an
argument, else 1 word. -/
def Instruction.size (i : Instruction) : Nat :=
  if i.has_arg then 2 else 1

/-- Modelled from the spec: `Instruction::arg` — the attached argument, when any. -/
def Instruction.arg : Instruction → Option BFieldElement
  | .push a => some a
  | .call a => some a
  | .dup a => some a
  | _ => none

/-- Modelled from the spec: `Instruction::change_arg` — replace the argument of an
argument-carrying instruction; `none` if the variant takes no argument or rejects
the value (`dup` accepts only one of the 16 stack positions). -/
def Instruction.change_arg (i : Instruction) (a : BFieldElement) : Option Instruction :=
  match i with
  | .push _ => some (.push a)
  | .call _ => some (.call a)
  | .dup _ => if a.val < 16 then some (.dup a) else none
  | _ => none

/-- Modelled from the spec: the stable numeric opcode of each variant (exact values
are not pinned by the excerpt; distinct values below 2^32 are what the codec needs). -/
def Instruction.opcode : Instruction → Nat
  | .push _ => 1
  | .call _ => 33
  | .dup _ => 9
  | .nop => 8
  | .skiz => 6
  | .assert => 10
  | .halt => 0
  | .eq => 42
  | .hash => 18

/-- `Instruction::opcode_b`: the opcode as a base-field element. -/
def Instruction.opcode_b (i : Instruction) : BFieldElement :=
  BFieldElement.new i.opcode

/-- Modelled from the spec: the `Display` rendering of an instruction; a double-word
instruction prints its mnemonic followed by its argument value. -/
def Instruction.render : Instruction → String
  | .push a => "push " ++ toString a.val
  | .call a => "call " ++ toString a.val
  | .dup a => "dup " ++ toString a.val
  | .nop => "nop"
  | .skiz => "skiz"
  | .assert => "assert"
  | .halt => "halt"
  | .eq => "eq"
  | .hash => "hash"

/-- Modelled from the spec: `TryFrom<u32> for Instruction` — interpret a word as an
opcode; argument-carrying variants come back with a default argument of 0. -/
def instructionFromOpcode (n : Nat) : Except String Instruction :=
  if n = 1 then .ok (.push (BFieldElement.new 0))
  else if n = 33 then .ok (.call (BFieldElement.new 0))
  else if n = 9 then .ok (.dup (BFieldElement.new 0))
  else if n = 8 then .ok .nop
  else if n = 6 then .ok .skiz
  else if n = 10 then .ok .assert
  else if n = 0 then .ok .halt
  else if n = 42 then .ok .eq
  else if n = 18 then .ok .hash
  else .error ("No instruction with opcode " ++ toString n ++ " exists.")

theorem Instruction.size_pos (i : Instruction) : 1 ≤ i.size := by
  cases i <;> simp [Instruction.size, Instruction.has_arg]

/-- `Program` (program.rs:29): a flat `Vec<Instruction>` in which instructions of
size 2 occupy two consecutive slots holding the same value, so that the vector index
coincides with the VM's `instruction_pointer`. -/
structure Program where
  instructions : List Instruction
deriving DecidableEq, Repr

/-- `Program::new` (program.rs:136): expand each instruction into `size()` copies.
Modelled from the spec: `convert_labels` (instruction.rs, not in the excerpt)
resolves labels to absolute addresses upstream; its output — a plain instruction
list — is taken as the input here. -/
def Program.new (input : List Instruction) : Program :=
  ⟨input.flatMap (fun instr => List.replicate instr.size instr)⟩

/-- The instruction sequence yielded by `InstructionIter` (program.rs:110).  The
iterator keeps a cursor into the slot vector: it reads the slot under the cursor
and advances by the instruction's size, skipping the duplicate placeholder of a
double-word instruction.  The cursor's position is represented here by the list
suffix it points at (reading slot `pos` = reading the head of `drop pos`), which
makes the walk structurally recursive. -/
def instructionSeq : List Instruction → List Instruction
  | [] => []
  | i :: rest =>
    if i.has_arg then
      i :: (match rest with
        | [] => []
        | _ :: rest2 => instructionSeq rest2)
    else
      i :: instructionSeq rest

/-- `Program::to_bwords` (program.rs:157): the wire form — one word per single-word
instruction, an (opcode, argument) pair per double-word instruction, obtained by
iterating with duplicate-slot skipping. -/
def Program.to_bwords (p : Program) : List BFieldElement :=
  (instructionSeq p.instructions).flatMap (fun instruction =>
    match instruction.arg with
    | some a => [instruction.opcode_b, a]
    | none => [instruction.opcode_b])

/-- `Program::len_bwords` (program.rs:173): total word count, equal to the
in-memory slot count. -/
def Program.len_bwords (p : Program) : Nat :=
  p.instructions.length

/-- `Program::is_empty` (program.rs:177). -/
def Program.is_empty (p : Program) : Bool :=
  p.instructions.isEmpty

/-- `Program::encode` (program.rs:93): the declared length followed by the wire
words. -/
def Program.encode (p : Program) : List BFieldElement :=
  BFieldElement.new p.len_bwords :: p.to_bwords

/-- Result of a decode: success, a named error, or a Rust panic (an out-of-bounds
slice index).  The panic constructor exists so that the absence of panics is a
provable statement about `Program::decode`. -/
inductive DResult (α : Type) where
  | ok : α → DResult α
  | err : String → DResult α
  | panic : String → DResult α
deriving DecidableEq, Repr

/-- The scan loop of `Program::decode` (program.rs:63-85).  The loop reads
`sequence[idx]` (and `sequence[idx + 1]` for an argument) while `idx <
program_length`; the suffix of the payload starting at the scan cursor is carried
as `remaining` (reading `sequence[idx]` = reading the head of `remaining`,
`sequence[idx + 1]` its second element), which makes the loop structurally
recursive.  An out-of-range read — a Rust slice panic — is the `panic` result.
`instructions` accumulates the instructions pushed so far. -/
def decodeScan (programLength : Nat) :
    List BFieldElement → Nat → List Instruction → DResult (Nat × List Instruction)
  | remaining, idx, instructions =>
    if idx < programLength then
      match remaining with
      | [] => .panic ("index out of bounds: " ++ toString idx)
      | w :: rest =>
        if w.val < 4294967296 then
          match instructionFromOpcode w.val with
          | .error e => .err e
          | .ok instruction =>
            if instruction.has_arg then
              if instructions.length + 1 ≥ programLength then
                .err ("Missing argument for instruction " ++ instruction.render
                  ++ " at index " ++ toString idx ++ ".")
              else
                match rest with
                | [] => .panic ("index out of bounds: " ++ toString (idx + 1))
                | a :: rest2 =>
                  match instruction.change_arg a with
                  | none =>
                    .err ("Invalid argument for instruction " ++ instruction.render
                      ++ " at index " ++ toString idx ++ ".")
                  | some instr =>
                    decodeScan programLength rest2 (idx + instruction.size)
                      (instructions ++ [instr, instr])
            else
              decodeScan programLength rest (idx + instruction.size)
                (instructions ++ [instruction])
        else .err ("Invalid opcode " ++ toString w.val ++ " at index " ++ toString idx ++ ".")
    else .ok (idx, instructions)

/-- The post-scan step of `Program::decode` (program.rs:87-90): reject the scan
result if the consumed word count differs from the declared length. -/
def decodeFinish (programLength idx : Nat) (instructions : List Instruction) :
    DResult Program :=
  if idx ≠ programLength then
    .err ("Decoded program must have length " ++ toString programLength
      ++ ", but has length " ++ toString idx ++ ".")
  else .ok ⟨instructions⟩

/-- `Program::decode` (program.rs:48-91). -/
def Program.decode (sequence : List BFieldElement) : DResult Program :=
  match sequence with
  | [] => .err "Sequence to decode must not be empty."
  | w :: rest =>
    let programLength := w.val
    if rest.length ≠ programLength then
      .err ("Sequence to decode must have length " ++ toString programLength
        ++ ", but has length " ++ toString rest.length ++ ".")
    else
      match decodeScan programLength rest 0 [] with
      | .ok (idx, instructions) => decodeFinish programLength idx instructions
      | .err e => .err e
      | .panic m => .panic m

/-- Modelled from the spec: a co-processor call descriptor (aet.rs, not in the
excerpt) — an auxiliary operation (here: hashing) whose sub-trace is recorded
separately (spec §3, glossary). -/
inductive CoProcessorCall where
  | hashCall (input : List BFieldElement)
deriving DecidableEq, Repr

/-- Modelled from the spec: `VMState` (vm.rs, not in the excerpt).  Spec §3: the
interpreter state — instruction pointer, monotonically increasing cycle counter,
halting flag, front-to-back input streams, append-only public output, plus the
internal stack needed to execute the instructions. -/
structure VMState where
  program : Program
  instruction_pointer : Nat
  cycle_count : Nat
  halting : Bool
  public_input : List BFieldElement
  secret_input : List BFieldElement
  public_output : List BFieldElement
  op_stack : List BFieldElement
deriving DecidableEq, Repr

/-- Modelled from the spec: `VMState::new` — bind a fresh state to a program and
its inputs; `halting` starts false, pointer and cycle counter start at zero. -/
def VMState.new (p : Program) (publicInput secretInput : List BFieldElement) : VMState :=
  { program := p
    instruction_pointer := 0
    cycle_count := 0
    halting := false
    public_input := publicInput
    secret_input := secretInput
    public_output := []
    op_stack := [] }

/-- Modelled from the spec: `VMState::step` (vm.rs, not in the excerpt).  Spec §4.2:
read the instruction at `instruction_pointer`, perform its effect, advance the
pointer by the instruction's size (or to a jump target), increment `cycle_count`,
and return an optional co-processor call descriptor.  Fails with an
instruction-specific error (pointer overflow, stack underflow, assertion failure).
The exact instruction semantics are left open by the spec (§9); a standard stack
machine over the modelled instruction set is used. -/
def VMState.step (s : VMState) : Except String (VMState × Option CoProcessorCall) :=
  match s.program.instructions[s.instruction_pointer]? with
  | none =>
    .error ("Instruction pointer " ++ toString s.instruction_pointer
      ++ " points outside of program.")
  | some instruction =>
    match instruction with
    | .push a =>
      .ok ({ s with op_stack := a :: s.op_stack
                    instruction_pointer := s.instruction_pointer + 2
                    cycle_count := s.cycle_count + 1 }, none)
    | .call a =>
      .ok ({ s with instruction_pointer := a.val
                    cycle_count := s.cycle_count + 1 }, none)
    | .dup a =>
      match s.op_stack[a.val]? with
      | none => .error "Operational stack too shallow."
      | some v =>
        .ok ({ s with op_stack := v :: s.op_stack
                      instruction_pointer := s.instruction_pointer + 2
                      cycle_count := s.cycle_count + 1 }, none)
    | .nop =>
      .ok ({ s with instruction_pointer := s.instruction_pointer + 1
                    cycle_count := s.cycle_count + 1 }, none)
    | .skiz =>
      match s.op_stack with
      | [] => .error "Operational stack too shallow."
      | t :: stack2 =>
        if t.val = 0 then
          match s.program.instructions[s.instruction_pointer + 1]? with
          | none =>
            .error ("Instruction pointer " ++ toString (s.instruction_pointer + 1)
              ++ " points outside of program.")
          | some next =>
            .ok ({ s with op_stack := stack2
                          instruction_pointer := s.instruction_pointer + 1 + next.size
                          cycle_count := s.cycle_count + 1 }, none)
        else
          .ok ({ s with op_stack := stack2
                        instruction_pointer := s.instruction_pointer + 1
                        cycle_count := s.cycle_count + 1 }, none)
    | .assert =>
      match s.op_stack with
      | [] => .error "Operational stack too shallow."
      | t :: stack2 =>
        if t.val = 1 then
          .ok ({ s with op_stack := stack2
                        instruction_pointer := s.instruction_pointer + 1
                        cycle_count := s.cycle_count + 1 }, none)
        else .error "Assertion failed: st0 must be 1."
    | .halt =>
      .ok ({ s with halting := true
                    instruction_pointer := s.instruction_pointer + 1
                    cycle_count := s.cycle_count + 1 }, none)
    | .eq =>
      match s.op_stack with
      | a :: b :: stack2 =>
        .ok ({ s with op_stack := (if a = b then BFieldElement.new 1 else BFieldElement.new 0) :: stack2
                      instruction_pointer := s.instruction_pointer + 1
                      cycle_count := s.cycle_count + 1 }, none)
      | _ => .error "Operational stack too shallow."
    | .hash =>
      .ok ({ s with instruction_pointer := s.instruction_pointer + 1
                    cycle_count := s.cycle_count + 1 },
        some (.hashCall (s.op_stack.take 10)))

/-- Modelled from the spec: `AlgebraicExecutionTrace` (aet.rs, not in the excerpt).
Spec §3: owns a clone of the program, a dense per-slot execution count
(`instruction_multiplicities`, same length as the program), and the ordered
co-processor call log.  The per-cycle processor rows recorded by `record_state`
are modelled as the list of (cycle, instruction pointer) pairs seen. -/
structure AlgebraicExecutionTrace where
  program : Program
  instruction_multiplicities : List Nat
  co_processor_calls : List CoProcessorCall
  processor_rows : List (Nat × Nat)
deriving DecidableEq, Repr

/-- Modelled from the spec: `AlgebraicExecutionTrace::new` — multiplicities sized
to the program's wire length, zero-filled; logs empty (spec §4.3). -/
def AlgebraicExecutionTrace.new (p : Program) : AlgebraicExecutionTrace :=
  { program := p
    instruction_multiplicities := List.replicate p.len_bwords 0
    co_processor_calls := []
    processor_rows := [] }

/-- Modelled from the spec: `AlgebraicExecutionTrace::record_state` (aet.rs, not in
the excerpt) — called before each step; fails with `InstructionPointerOverflow`
when the pointer is outside the trace's bounds, otherwise records the per-cycle
state row.  The multiplicity update that spec §4.3 describes as part of the
per-cycle recording is the inline code in `trace_execution` (program.rs:222-225),
so it is not repeated here: repeating it would double every count and break the
spec's own invariant that the multiplicities sum to the number of steps taken. -/
def AlgebraicExecutionTrace.record_state (aet : AlgebraicExecutionTrace) (s : VMState) :
    Except String AlgebraicExecutionTrace :=
  if s.instruction_pointer < aet.instruction_multiplicities.length then
    .ok { aet with processor_rows := aet.processor_rows ++ [(s.cycle_count, s.instruction_pointer)] }
  else
    .error ("Instruction pointer " ++ toString s.instruction_pointer
      ++ " points outside of program.")

/-- Modelled from the spec: `AlgebraicExecutionTrace::record_co_processor_call` —
append the call to the log, preserving call order (spec §4.3). -/
def AlgebraicExecutionTrace.record_co_processor_call (aet : AlgebraicExecutionTrace)
    (c : CoProcessorCall) : AlgebraicExecutionTrace :=
  { aet with co_processor_calls := aet.co_processor_calls ++ [c] }

/-- Outcome of a driver loop that the source bounds only by the halting flag:
success, a propagated step error, or exhaustion of the iteration budget `fuel`
(the source loop simply has not terminated yet at that point). -/
inductive RunResult (α : Type) where
  | ok : α → RunResult α
  | err : String → RunResult α
  | timeout : RunResult α
deriving DecidableEq, Repr

/-- The loop of `Program::run` (program.rs:195-197): step while not halting.
`fuel` bounds the number of iterations observed. -/
def runLoop : Nat → VMState → RunResult VMState
  | 0, s => if s.halting then .ok s else .timeout
  | fuel + 1, s =>
    if s.halting then .ok s
    else
      match s.step with
      | .error e => .err e
      | .ok (s', _) => runLoop fuel s'

/-- `Program::run` (program.rs:189): execute and return the public output. -/
def Program.run (fuel : Nat) (p : Program)
    (publicInput secretInput : List BFieldElement) : RunResult (List BFieldElement) :=
  match runLoop fuel (VMState.new p publicInput secretInput) with
  | .ok s => .ok s.public_output
  | .err e => .err e
  | .timeout => .timeout

/-- One iteration of the `trace_execution` loop body (program.rs:220-230): record
the state, bump the multiplicity of the slot under the instruction pointer (or
fail with `InstructionPointerOverflow`), step, and log any co-processor call. -/
def traceCycle (aet : AlgebraicExecutionTrace) (s : VMState) :
    Except String (AlgebraicExecutionTrace × VMState) :=
  match aet.record_state s with
  | .error e => .error e
  | .ok aet1 =>
    if s.instruction_pointer < aet1.instruction_multiplicities.length then
      let aet2 := { aet1 with
        instruction_multiplicities :=
          aet1.instruction_multiplicities.set s.instruction_pointer
            (aet1.instruction_multiplicities.getD s.instruction_pointer 0 + 1) }
      match s.step with
      | .error e => .error e
      | .ok (s', maybeCall) =>
        match maybeCall with
        | some c => .ok (aet2.record_co_processor_call c, s')
        | none => .ok (aet2, s')
    else
      .error ("Instruction pointer " ++ toString s.instruction_pointer
        ++ " points outside of program.")

/-- The loop of `Program::trace_execution` (program.rs:219-231). -/
def traceLoop : Nat → AlgebraicExecutionTrace → VMState →
    RunResult (AlgebraicExecutionTrace × VMState)
  | 0, aet, s => if s.halting then .ok (aet, s) else .timeout
  | fuel + 1, aet, s =>
    if s.halting then .ok (aet, s)
    else
      match traceCycle aet s with
      | .error e => .err e
      | .ok (aet', s') => traceLoop fuel aet' s'

/-- `Program::trace_execution` (program.rs:210): run while recording the algebraic
execution trace; on success return the trace and the public output. -/
def Program.trace_execution (fuel : Nat) (p : Program)
    (publicInput secretInput : List BFieldElement) :
    RunResult (AlgebraicExecutionTrace × List BFieldElement) :=
  match traceLoop fuel (AlgebraicExecutionTrace.new p) (VMState.new p publicInput secretInput) with
  | .ok (aet, s) => .ok (aet, s.public_output)
  | .err e => .err e
  | .timeout => .timeout

/-- The initial state shared by `debug` and `debug_terminal_state`
(program.rs:260-263, 300-303): the caller-supplied state if any — in which case the
call's own program and inputs are ignored — else a fresh state. -/
def initialStateOf (p : Program) (publicInput secretInput : List BFieldElement)
    (initialState : Option VMState) : VMState :=
  match initialState with
  | some st => st
  | none => VMState.new p publicInput secretInput

/-- The cycle bound shared by `debug` and `debug_terminal_state`
(program.rs:265-268, 305-308): the initial state's cycle count plus the requested
number of cycles, or `u32::MAX` when no count is requested. -/
def maxCyclesOf (s : VMState) (numCyclesToExecute : Option Nat) : Nat :=
  match numCyclesToExecute with
  | some numberOfCycles => s.cycle_count + numberOfCycles
  | none => 4294967295

/-- The loop of `Program::debug` (program.rs:270-278): while not halting and under
the cycle bound, push a snapshot of the current state, then step; a step error
returns the snapshots collected so far together with the error, and on normal exit
the final state is pushed as well.  `step` increments the cycle counter by exactly
one, so the loop runs at most `maxCycles - cycle_count` further iterations; that
quantity is carried as the structural recursion measure `fuel`, and the drivers
below instantiate it so that it reaches zero only when the loop guard is false,
where the returned value is the loop's own exit value. -/
def debugLoop (maxCycles : Nat) : Nat → List VMState → VMState →
    List VMState × Option String
  | 0, states, s => (states ++ [s], none)
  | fuel + 1, states, s =>
    if s.halting = false ∧ s.cycle_count < maxCycles then
      match s.step with
      | .error e => (states ++ [s], some e)
      | .ok (s', _) => debugLoop maxCycles fuel (states ++ [s]) s'
    else (states ++ [s], none)

/-- `Program::debug` (program.rs:252): run, snapshotting every state, under the
optional cycle budget and optional caller-supplied initial state. -/
def Program.debug (p : Program) (publicInput secretInput : List BFieldElement)
    (initialState : Option VMState) (numCyclesToExecute : Option Nat) :
    List VMState × Option String :=
  let s := initialStateOf p publicInput secretInput initialState
  let maxCycles := maxCyclesOf s numCyclesToExecute
  debugLoop maxCycles (maxCycles - s.cycle_count) [] s

/-- The loop of `Program::debug_terminal_state` (program.rs:310-318): while not
halting and under the cycle bound, snapshot the current state, then step; a step
error returns the last known-to-be-consistent state (the snapshot taken before the
failing step) with the error.  Fuel plays the same role as in `debugLoop`. -/
def debugTerminalLoop (maxCycles : Nat) : Nat → VMState →
    Except (String × VMState) VMState
  | 0, s => .ok s
  | fuel + 1, s =>
    if s.halting = false ∧ s.cycle_count < maxCycles then
      match s.step with
      | .error e => .error (e, s)
      | .ok (s', _) => debugTerminalLoop maxCycles fuel s'
    else .ok s

/-- `Program::debug_terminal_state` (program.rs:293): run without snapshots and
return the final state, or the error paired with the state at the point of
failure. -/
def Program.debug_terminal_state (p : Program)
    (publicInput secretInput : List BFieldElement) (initialState : Option VMState)
    (numCyclesToExecute : Option Nat) : Except (String × VMState) VMState :=
  let s := initialStateOf p publicInput secretInput initialState
  let maxCycles := maxCyclesOf s numCyclesToExecute
  debugTerminalLoop maxCycles (maxCycles - s.cycle_count) s

/-- Every successful step increments the cycle counter by exactly one (spec §4.2:
`step` "increments `cycle_count`"). -/
theorem VMState.step_cycle (s s' : VMState) (c : Option CoProcessorCall)
    (h : s.step = .ok (s', c)) : s'.cycle_count = s.cycle_count + 1 := by
  cases hget : s.program.instructions[s.instruction_pointer]? with
  | none => simp [VMState.step, hget] at h
  | some i =>
    cases i with
    | push a =>
      simp only [VMState.step, hget] at h
      injection h with h3; injection h3 with h4 h5; rw [← h4]
    | call a =>
      simp only [VMState.step, hget] at h
      injection h with h3; injection h3 with h4 h5; rw [← h4]
    | dup a =>
      cases hv : s.op_stack[a.val]? with
      | none => simp [VMState.step, hget, hv] at h
      | some v =>
        simp only [VMState.step, hget, hv] at h
        injection h with h3; injection h3 with h4 h5; rw [← h4]
    | nop =>
      simp only [VMState.step, hget] at h
      injection h with h3; injection h3 with h4 h5; rw [← h4]
    | skiz =>
      cases hst : s.op_stack with
      | nil => simp [VMState.step, hget, hst] at h
      | cons t stack2 =>
        by_cases ht : t.val = 0
        · cases hnx : s.program.instructions[s.instruction_pointer + 1]? with
          | none => simp [VMState.step, hget, hst, ht, hnx] at h
          | some nx =>
            simp only [VMState.step, hget, hst, hnx] at h
            rw [if_pos ht] at h
            injection h with h3; injection h3 with h4 h5; rw [← h4]
        · simp only [VMState.step, hget, hst] at h
          rw [if_neg ht] at h
          injection h with h3; injection h3 with h4 h5; rw [← h4]
    | assert =>
      cases hst : s.op_stack with
      | nil => simp [VMState.step, hget, hst] at h
      | cons t stack2 =>
        by_cases ht : t.val = 1
        · simp only [VMState.step, hget, hst] at h
          rw [if_pos ht] at h
          injection h with h3; injection h3 with h4 h5; rw [← h4]
        · simp [VMState.step, hget, hst, ht] at h
    | halt =>
      simp only [VMState.step, hget] at h
      injection h with h3; injection h3 with h4 h5; rw [← h4]
    | eq =>
      cases hst : s.op_stack with
      | nil => simp [VMState.step, hget, hst] at h
      | cons a rest =>
        cases rest with
        | nil => simp [VMState.step, hget, hst] at h
        | cons b stack2 =>
          simp only [VMState.step, hget, hst] at h
          injection h with h3; injection h3 with h4 h5; rw [← h4]
    | hash =>
      simp only [VMState.step, hget] at h
      injection h with h3; injection h3 with h4 h5; rw [← h4]

/-- One instruction's contribution to the wire form: its opcode word, followed by
its argument word when it has one (the body of the `flat_map` in
`Program::to_bwords`). -/
def wireOf (instruction : Instruction) : List BFieldElement :=
  match instruction.arg with
  | some a => [instruction.opcode_b, a]
  | none => [instruction.opcode_b]

/-- One instruction's contribution to the in-memory slot sequence: `size()` copies
of itself (the body of the `flat_map` in `Program::new`). -/
def dupExpand (instr : Instruction) : List Instruction :=
  List.replicate instr.size instr

theorem Program.new_eq (input : List Instruction) :
    (Program.new input).instructions = input.flatMap dupExpand := rfl

theorem Program.to_bwords_eq (p : Program) :
    p.to_bwords = (instructionSeq p.instructions).flatMap wireOf := rfl

/-- The variant with its argument (if any) reset to zero — the instruction that
decoding the bare opcode yields. -/
def Instruction.withArgZero : Instruction → Instruction
  | .push _ => .push (BFieldElement.new 0)
  | .call _ => .call (BFieldElement.new 0)
  | .dup _ => .dup (BFieldElement.new 0)
  | x => x

/-- An instruction's attached argument is acceptable to `change_arg` (only `dup`
constrains its argument). -/
def Instruction.argOk : Instruction → Bool
  | .dup a => a.val < 16
  | _ => true

theorem Instruction.opcode_lt (i : Instruction) : i.opcode < 4294967296 := by
  cases i <;> simp [Instruction.opcode]

theorem Instruction.opcode_b_val (i : Instruction) : i.opcode_b.val = i.opcode := by
  cases i <;> rfl

theorem instructionFromOpcode_self (i : Instruction) :
    instructionFromOpcode i.opcode = .ok i.withArgZero := by
  cases i <;> rfl

theorem Instruction.withArgZero_noarg (i : Instruction) (h : i.has_arg = false) :
    i.withArgZero = i := by
  cases i <;> simp_all [Instruction.has_arg, Instruction.withArgZero]

theorem Instruction.withArgZero_has_arg (i : Instruction) :
    i.withArgZero.has_arg = i.has_arg := by
  cases i <;> rfl

theorem Instruction.withArgZero_size (i : Instruction) :
    i.withArgZero.size = i.size := by
  cases i <;> rfl

theorem Instruction.arg_none_iff (i : Instruction) :
    i.arg = none ↔ i.has_arg = false := by
  cases i <;> simp [Instruction.arg, Instruction.has_arg]

theorem Instruction.arg_some_has_arg (i : Instruction) (a : BFieldElement)
    (h : i.arg = some a) : i.has_arg = true := by
  cases i <;> simp_all [Instruction.arg, Instruction.has_arg]

theorem Instruction.change_arg_withArgZero (i : Instruction) (a : BFieldElement)
    (harg : i.arg = some a) (hok : i.argOk = true) :
    i.withArgZero.change_arg a = some i := by
  cases i <;> simp_all [Instruction.arg, Instruction.argOk, Instruction.withArgZero,
    Instruction.change_arg]

theorem Instruction.change_arg_has_arg (i j : Instruction) (a : BFieldElement)
    (h : i.change_arg a = some j) : j.has_arg = true := by
  cases i <;> simp only [Instruction.change_arg] at h
  case push => injection h with h2; rw [← h2]; rfl
  case call => injection h with h2; rw [← h2]; rfl
  case dup =>
    split at h
    · injection h with h2; rw [← h2]; rfl
    · exact Option.noConfusion h
  all_goals exact Option.noConfusion h

theorem wireOf_length (i : Instruction) : (wireOf i).length = i.size := by
  cases i <;> rfl

theorem dupExpand_length (i : Instruction) : (dupExpand i).length = i.size := by
  simp [dupExpand]

theorem dupExpand_noarg (i : Instruction) (h : i.has_arg = false) :
    dupExpand i = [i] := by
  simp [dupExpand, Instruction.size, h]

theorem dupExpand_arg (i : Instruction) (h : i.has_arg = true) :
    dupExpand i = [i, i] := by
  simp [dupExpand, Instruction.size, h]

theorem instructionSeq_dupExpand (i : Instruction) (l : List Instruction) :
    instructionSeq (dupExpand i ++ l) = i :: instructionSeq l := by
  cases hi : i.has_arg
  · rw [dupExpand_noarg i hi]
    rw [List.cons_append, List.nil_append, instructionSeq.eq_def]
    dsimp only
    rw [if_neg (by rw [hi]; exact Bool.false_ne_true)]
  · rw [dupExpand_arg i hi]
    rw [List.cons_append, List.cons_append, List.nil_append, instructionSeq.eq_def]
    dsimp only
    rw [if_pos hi]

theorem instructionSeq_new (input : List Instruction) :
    instructionSeq (input.flatMap dupExpand) = input := by
  induction input with
  | nil => rfl
  | cons i rest ih => rw [List.flatMap_cons, instructionSeq_dupExpand, ih]

theorem wire_dup_length (input : List Instruction) :
    (input.flatMap wireOf).length = (input.flatMap dupExpand).length := by
  induction input with
  | nil => rfl
  | cons i rest ih =>
    simp only [List.flatMap_cons, List.length_append, wireOf_length, dupExpand_length, ih]

theorem decodeScan_wire (input : List Instruction) :
    ∀ (programLength idx : Nat) (acc : List Instruction),
    (∀ i ∈ input, i.argOk = true) →
    acc.length = idx →
    programLength = idx + (input.flatMap wireOf).length →
    decodeScan programLength (input.flatMap wireOf) idx acc
      = .ok (programLength, acc ++ input.flatMap dupExpand) := by
  induction input with
  | nil =>
    intro PL idx acc _ hlen hPL
    simp only [List.flatMap_nil, List.length_nil, Nat.add_zero] at hPL
    unfold decodeScan
    rw [if_neg (by omega)]
    simp [hPL]
  | cons i rest ih =>
    intro PL idx acc hargs hlen hPL
    have hargi : i.argOk = true := hargs i (List.mem_cons_self i rest)
    have hargr : ∀ j ∈ rest, j.argOk = true := fun j hj => hargs j (List.mem_cons_of_mem i hj)
    rcases harg : i.arg with _ | a
    · -- single-word instruction
      have hna : i.has_arg = false := (Instruction.arg_none_iff i).mp harg
      have hsz : i.size = 1 := by simp [Instruction.size, hna]
      have hwire : (i :: rest).flatMap wireOf = i.opcode_b :: rest.flatMap wireOf := by
        simp [List.flatMap_cons, wireOf, harg]
      rw [hwire] at hPL ⊢
      have hlt : idx < PL := by simp at hPL; omega
      unfold decodeScan
      dsimp only
      rw [if_pos hlt]
      have hop : i.opcode_b.val < 4294967296 := by
        rw [Instruction.opcode_b_val]; exact i.opcode_lt
      rw [if_pos hop, Instruction.opcode_b_val, instructionFromOpcode_self,
        Instruction.withArgZero_noarg i hna]
      dsimp only
      rw [if_neg (by rw [hna]; exact Bool.false_ne_true)]
      rw [hsz]
      rw [ih PL (idx + 1) (acc ++ [i]) hargr (by simp [hlen])
        (by simp at hPL ⊢; omega)]
      simp [List.flatMap_cons, dupExpand_noarg i hna]
    · -- double-word instruction
      have hha : i.has_arg = true := Instruction.arg_some_has_arg i a harg
      have hsz : i.size = 2 := by simp [Instruction.size, hha]
      have hwire : (i :: rest).flatMap wireOf = i.opcode_b :: a :: rest.flatMap wireOf := by
        simp [List.flatMap_cons, wireOf, harg]
      rw [hwire] at hPL ⊢
      have hlt : idx < PL := by simp at hPL; omega
      unfold decodeScan
      dsimp only
      rw [if_pos hlt]
      have hop : i.opcode_b.val < 4294967296 := by
        rw [Instruction.opcode_b_val]; exact i.opcode_lt
      rw [if_pos hop, Instruction.opcode_b_val, instructionFromOpcode_self]
      dsimp only
      rw [if_pos (by rw [Instruction.withArgZero_has_arg, hha])]
      have hguard : ¬ (acc.length + 1 ≥ PL) := by simp at hPL; omega
      rw [if_neg hguard]
      rw [Instruction.change_arg_withArgZero i a harg hargi]
      dsimp only
      rw [Instruction.withArgZero_size, hsz]
      rw [ih PL (idx + 2) (acc ++ [i, i]) hargr (by simp [hlen])
        (by simp at hPL ⊢; omega)]
      simp [List.flatMap_cons, dupExpand_arg i hha]

/-- C1: for every Program built from valid source text — i.e. `Program::new` applied
to a label-resolved instruction list whose arguments are acceptable and whose slot
count fits in the field — `Program::decode` of `Program::encode` succeeds and
returns the same Program. -/
theorem decode_encode_roundtrip (input : List Instruction)
    (hargs : ∀ i ∈ input, i.argOk = true)
    (hsize : (Program.new input).len_bwords < bfePrime) :
    Program.decode ((Program.new input).encode) = DResult.ok (Program.new input) := by
  have hN : (BFieldElement.new (Program.new input).len_bwords).val
      = (Program.new input).len_bwords := Nat.mod_eq_of_lt hsize
  have hwords : (Program.new input).to_bwords = input.flatMap wireOf := by
    rw [Program.to_bwords_eq]
    have : (Program.new input).instructions = input.flatMap dupExpand := Program.new_eq input
    rw [this, instructionSeq_new]
  have hlenb : (Program.new input).len_bwords = (input.flatMap dupExpand).length := by
    rw [Program.len_bwords, Program.new_eq]
  rw [Program.encode, hwords]
  unfold Program.decode
  dsimp only
  rw [if_neg (by rw [hN, wire_dup_length, hlenb]; exact fun hne => hne rfl)]
  rw [hN]
  rw [decodeScan_wire input ((Program.new input).len_bwords) 0 [] hargs rfl
    (by rw [wire_dup_length, hlenb]; omega)]
  dsimp only
  unfold decodeFinish
  rw [if_neg (fun hne => hne rfl)]
  rw [List.nil_append]
  rfl

/-- Witness for C1 at a concrete two-instruction program. -/
theorem decode_encode_roundtrip_witness :
    (∀ i ∈ [Instruction.push (BFieldElement.new 3), Instruction.halt], i.argOk = true)
    ∧ (Program.new [Instruction.push (BFieldElement.new 3), Instruction.halt]).len_bwords < bfePrime
    ∧ Program.decode ((Program.new [Instruction.push (BFieldElement.new 3), Instruction.halt]).encode)
        = DResult.ok (Program.new [Instruction.push (BFieldElement.new 3), Instruction.halt]) :=
  ⟨by decide, by decide, decode_encode_roundtrip _ (by decide) (by decide)⟩

/-- Whether a decode outcome is a Rust panic. -/
def DResult.isPanic : {α : Type} → DResult α → Bool
  | _, .panic _ => true
  | _, _ => false

theorem decodeScan_no_panic (PL : Nat) :
    ∀ (n : Nat) (remaining : List BFieldElement) (idx : Nat) (acc : List Instruction),
      remaining.length ≤ n → acc.length = idx → idx + remaining.length = PL →
      (decodeScan PL remaining idx acc).isPanic = false := by
  intro n
  induction n with
  | zero =>
    intro remaining idx acc hle hacc hPL
    have : remaining = [] := List.length_eq_zero.mp (Nat.le_zero.mp hle)
    subst this
    unfold decodeScan
    rw [if_neg (by simp at hPL; omega)]
    rfl
  | succ n ih =>
    intro remaining idx acc hle hacc hPL
    cases remaining with
    | nil =>
      unfold decodeScan
      rw [if_neg (by simp at hPL; omega)]
      rfl
    | cons w rest =>
      unfold decodeScan
      dsimp only
      rw [if_pos (by simp at hPL; omega)]
      by_cases hop : w.val < 4294967296
      · rw [if_pos hop]
        rcases hfrom : instructionFromOpcode w.val with e | instruction
        · rfl
        · dsimp only
          cases hha : instruction.has_arg
          · rw [if_neg Bool.false_ne_true]
            have hsz : instruction.size = 1 := by simp [Instruction.size, hha]
            rw [hsz]
            exact ih rest (idx + 1) (acc ++ [instruction])
              (by simp at hle; omega) (by simp [hacc]) (by simp at hPL; omega)
          · rw [if_pos rfl]
            by_cases hguard : acc.length + 1 ≥ PL
            · rw [if_pos hguard]; rfl
            · rw [if_neg hguard]
              cases rest with
              | nil =>
                exfalso
                simp at hPL
                omega
              | cons a rest2 =>
                dsimp only
                rcases hch : instruction.change_arg a with _ | instr
                · rfl
                · have hsz : instruction.size = 2 := by simp [Instruction.size, hha]
                  rw [hsz]
                  exact ih rest2 (idx + 2) (acc ++ [instr, instr])
                    (by simp at hle; omega) (by simp [hacc]) (by simp at hPL; omega)
      · rw [if_neg hop]; rfl

/-- C10: `Program::decode` never indexes the input sequence out of bounds — on any
input it yields a named error or a program, never a panic.  Internally, the number
of pushed instructions equals the scan index at every iteration, so the
`instructions.len() + 1 >= program_length` guard fires exactly when
`sequence[idx + 1]` would be out of range, and `sequence[idx]` itself is always in
range. -/
theorem decode_never_panics (sequence : List BFieldElement) :
    (Program.decode sequence).isPanic = false := by
  cases sequence with
  | nil => rfl
  | cons w rest =>
    unfold Program.decode
    dsimp only
    by_cases hlen : rest.length ≠ w.val
    · rw [if_pos hlen]; rfl
    · rw [if_neg hlen]
      push_neg at hlen
      have hscan := decodeScan_no_panic w.val rest.length rest 0 [] (Nat.le_refl _) rfl
        (by omega)
      rcases hres : decodeScan w.val rest 0 [] with ⟨idx, instrs⟩ | e | m
      · dsimp only
        unfold decodeFinish
        by_cases hidx : idx ≠ w.val
        · rw [if_pos hidx]; rfl
        · rw [if_neg hidx]; rfl
      · rfl
      · rw [hres] at hscan
        exact absurd hscan (by simp [DResult.isPanic])

/-- The program of the truncated-argument decode test (program.rs:350), i.e. the
label-resolved instruction list of `"push 3 push 3 eq assert push 3"`. -/
def pushEqAssertProgram : Program :=
  Program.new [.push (BFieldElement.new 3), .push (BFieldElement.new 3), .eq, .assert,
    .push (BFieldElement.new 3)]

/-- The corrupted encoding of the truncated-argument test (program.rs:352-355):
drop the final wire word and decrement the declared length by one. -/
def truncatedEncoding : List BFieldElement :=
  (pushEqAssertProgram.encode.take (pushEqAssertProgram.encode.length - 1)).set 0
    (BFieldElement.new (pushEqAssertProgram.len_bwords - 1))

/-- C5: the decode scan fails with `MissingArgument` whenever the opcode under the
cursor takes an argument and no wire word remains for it within the declared
length; in particular the truncated encoding of `"push 3 push 3 eq assert push 3"`
decodes to exactly the message of the source test (program.rs:358-361). -/
theorem decode_missing_argument :
    (∀ (PL idx : Nat) (w : BFieldElement) (rest : List BFieldElement)
       (acc : List Instruction) (instruction : Instruction),
      idx < PL → w.val < 4294967296 → instructionFromOpcode w.val = .ok instruction →
      instruction.has_arg = true → acc.length + 1 ≥ PL →
      decodeScan PL (w :: rest) idx acc
        = .err ("Missing argument for instruction " ++ instruction.render
            ++ " at index " ++ toString idx ++ "."))
    ∧ Program.decode truncatedEncoding
        = DResult.err "Missing argument for instruction push 0 at index 6." := by
  constructor
  · intro PL idx w rest acc instruction hlt hop hfrom hha hguard
    unfold decodeScan
    dsimp only
    rw [if_pos hlt, if_pos hop, hfrom]
    dsimp only
    rw [if_pos hha, if_pos hguard]
  · decide

/-- Witness for C5's general conjunct at the concrete truncated encoding: the
cursor sits at index 6 on a `push` opcode with no word left for its argument. -/
theorem decode_missing_argument_witness :
    decodeScan 7 [BFieldElement.new 1] 6
        [.push (BFieldElement.new 3), .push (BFieldElement.new 3),
         .push (BFieldElement.new 3), .push (BFieldElement.new 3), .eq, .assert]
      = .err ("Missing argument for instruction "
          ++ (Instruction.push (BFieldElement.new 0)).render ++ " at index "
          ++ toString 6 ++ ".") :=
  decode_missing_argument.1 7 6 (BFieldElement.new 1) []
    [.push (BFieldElement.new 3), .push (BFieldElement.new 3),
     .push (BFieldElement.new 3), .push (BFieldElement.new 3), .eq, .assert]
    (.push (BFieldElement.new 0)) (by decide) (by decide) rfl (by decide)
    (by decide)

/-- The program of the length-mismatch decode test (program.rs:366), i.e. the
label-resolved instruction list of `"nop nop hash push 0 skiz end: halt call end"`
(the label `end` resolves to address 6). -/
def lengthMismatchProgram : Program :=
  Program.new [.nop, .nop, .hash, .push (BFieldElement.new 0), .skiz, .halt,
    .call (BFieldElement.new 6)]

/-- The corrupted encoding of the length-mismatch test (program.rs:368-370):
increment the declared length field by one, payload unchanged. -/
def paddedLengthEncoding : List BFieldElement :=
  lengthMismatchProgram.encode.set 0
    (BFieldElement.new (lengthMismatchProgram.len_bwords + 1))

/-- C6: decode fails before scanning any wire word whenever the declared length
differs from the number of remaining words, with the exact message of
program.rs:55-58; in particular the padded encoding of
`"nop nop hash push 0 skiz end: halt call end"` yields exactly the message of the
source test (program.rs:372-376). -/
theorem decode_length_mismatch :
    (∀ (w : BFieldElement) (rest : List BFieldElement), rest.length ≠ w.val →
      Program.decode (w :: rest)
        = .err ("Sequence to decode must have length " ++ toString w.val
            ++ ", but has length " ++ toString rest.length ++ "."))
    ∧ Program.decode paddedLengthEncoding
        = DResult.err "Sequence to decode must have length 10, but has length 9." := by
  constructor
  · intro w rest hne
    unfold Program.decode
    dsimp only
    rw [if_pos hne]
  · decide

/-- Witness for C6's general conjunct: a declared length of 2 over a one-word
payload. -/
theorem decode_length_mismatch_witness :
    Program.decode [BFieldElement.new 2, BFieldElement.new 8]
      = .err ("Sequence to decode must have length " ++ toString (BFieldElement.new 2).val
          ++ ", but has length " ++ toString [BFieldElement.new 8].length ++ ".") :=
  decode_length_mismatch.1 (BFieldElement.new 2) [BFieldElement.new 8] (by decide)

/-- C7: on any input passing the initial length check, `Program::decode`'s result
is `decodeFinish` applied to the scan's outcome, and `decodeFinish` rejects a
consumed-word count different from the declared length with the `LengthMismatch`
message of program.rs:88 instead of returning a program. -/
theorem decode_final_length_check :
    (∀ (w : BFieldElement) (rest : List BFieldElement) (idx : Nat)
       (instrs : List Instruction),
      rest.length = w.val → decodeScan w.val rest 0 [] = .ok (idx, instrs) →
      Program.decode (w :: rest) = decodeFinish w.val idx instrs)
    ∧ (∀ (programLength idx : Nat) (instrs : List Instruction), idx ≠ programLength →
      decodeFinish programLength idx instrs
        = .err ("Decoded program must have length " ++ toString programLength
            ++ ", but has length " ++ toString idx ++ ".")) := by
  constructor
  · intro w rest idx instrs hlen hscan
    unfold Program.decode
    dsimp only
    rw [if_neg (by omega), hscan]
  · intro PL idx instrs hne
    unfold decodeFinish
    rw [if_pos hne]

/-- Witness for C7: a one-word `nop` payload passes the scan, and a mismatched
final count is rejected. -/
theorem decode_final_length_check_witness :
    (Program.decode [BFieldElement.new 1, BFieldElement.new 8]
        = decodeFinish (BFieldElement.new 1).val 1 [.nop])
    ∧ decodeFinish 5 1 [.nop]
        = .err ("Decoded program must have length " ++ toString 5
            ++ ", but has length " ++ toString 1 ++ ".") :=
  ⟨decode_final_length_check.1 (BFieldElement.new 1) [BFieldElement.new 8] 1 [.nop]
      (by decide) (by decide),
   decode_final_length_check.2 5 1 [.nop] (by decide)⟩

/-- The shape every in-memory instruction sequence produced by the core has: a
concatenation of blocks, one slot per argument-less instruction and two
consecutive slots holding the same instruction per argument-carrying one
(program.rs:24-27, 80-82, 139). -/
inductive ChunksWf : List Instruction → Prop where
  | nil : ChunksWf []
  | one (i : Instruction) (rest : List Instruction) :
      i.has_arg = false → ChunksWf rest → ChunksWf (i :: rest)
  | two (i : Instruction) (rest : List Instruction) :
      i.has_arg = true → ChunksWf rest → ChunksWf (i :: i :: rest)

theorem chunksWf_flatMap (input : List Instruction) :
    ChunksWf (input.flatMap dupExpand) := by
  induction input with
  | nil => exact ChunksWf.nil
  | cons i rest ih =>
    rw [List.flatMap_cons]
    cases hi : i.has_arg
    · rw [dupExpand_noarg i hi]
      exact ChunksWf.one i _ hi ih
    · rw [dupExpand_arg i hi]
      exact ChunksWf.two i _ hi ih

theorem chunksWf_exists (l : List Instruction) (h : ChunksWf l) :
    ∃ input : List Instruction, l = input.flatMap dupExpand := by
  induction h with
  | nil => exact ⟨[], rfl⟩
  | one i rest hi _ ih =>
    obtain ⟨input, hinput⟩ := ih
    exact ⟨i :: input, by rw [List.flatMap_cons, dupExpand_noarg i hi, hinput]; rfl⟩
  | two i rest hi _ ih =>
    obtain ⟨input, hinput⟩ := ih
    exact ⟨i :: input, by rw [List.flatMap_cons, dupExpand_arg i hi, hinput]; rfl⟩

theorem decodeScan_chunks (PL : Nat) :
    ∀ (n : Nat) (remaining : List BFieldElement) (idx : Nat)
      (acc out : List Instruction) (idxF : Nat),
      remaining.length ≤ n →
      decodeScan PL remaining idx acc = .ok (idxF, out) →
      ∃ extra : List Instruction, out = acc ++ extra.flatMap dupExpand := by
  intro n
  induction n with
  | zero =>
    intro remaining idx acc out idxF hle hscan
    have : remaining = [] := List.length_eq_zero.mp (Nat.le_zero.mp hle)
    subst this
    unfold decodeScan at hscan
    by_cases hlt : idx < PL
    · rw [if_pos hlt] at hscan
      exact absurd hscan (by simp)
    · rw [if_neg hlt] at hscan
      injection hscan with h2
      injection h2 with h3 h4
      exact ⟨[], by rw [← h4]; simp⟩
  | succ n ih =>
    intro remaining idx acc out idxF hle hscan
    cases remaining with
    | nil =>
      unfold decodeScan at hscan
      by_cases hlt : idx < PL
      · rw [if_pos hlt] at hscan
        exact absurd hscan (by simp)
      · rw [if_neg hlt] at hscan
        injection hscan with h2
        injection h2 with h3 h4
        exact ⟨[], by rw [← h4]; simp⟩
    | cons w rest =>
      unfold decodeScan at hscan
      by_cases hlt : idx < PL
      · rw [if_pos hlt] at hscan
        dsimp only at hscan
        by_cases hop : w.val < 4294967296
        · rw [if_pos hop] at hscan
          rcases hfrom : instructionFromOpcode w.val with e | instruction <;>
            rw [hfrom] at hscan
          · exact absurd hscan (by simp)
          · dsimp only at hscan
            cases hha : instruction.has_arg <;> rw [hha] at hscan
            · rw [if_neg Bool.false_ne_true] at hscan
              obtain ⟨extra, hextra⟩ := ih rest _ _ _ _ (by simp at hle; omega) hscan
              refine ⟨instruction :: extra, ?_⟩
              rw [hextra, List.flatMap_cons, dupExpand_noarg instruction hha]
              simp
            · rw [if_pos rfl] at hscan
              by_cases hguard : acc.length + 1 ≥ PL
              · rw [if_pos hguard] at hscan
                exact absurd hscan (by simp)
              · rw [if_neg hguard] at hscan
                cases rest with
                | nil => exact absurd hscan (by simp)
                | cons a rest2 =>
                  dsimp only at hscan
                  rcases hch : instruction.change_arg a with _ | instr <;>
                    rw [hch] at hscan
                  · exact absurd hscan (by simp)
                  · obtain ⟨extra, hextra⟩ :=
                      ih rest2 _ _ _ _ (by simp at hle; omega) hscan
                    refine ⟨instr :: extra, ?_⟩
                    rw [hextra, List.flatMap_cons,
                      dupExpand_arg instr (Instruction.change_arg_has_arg instruction instr a hch)]
                    simp
        · rw [if_neg hop] at hscan
          exact absurd hscan (by simp)
      · rw [if_neg hlt] at hscan
        injection hscan with h2
        injection h2 with h3 h4
        exact ⟨[], by rw [← h4]; simp⟩

theorem decode_chunksWf (sequence : List BFieldElement) (p : Program)
    (h : Program.decode sequence = .ok p) : ChunksWf p.instructions := by
  cases sequence with
  | nil => exact absurd h (by simp [Program.decode])
  | cons w rest =>
    unfold Program.decode at h
    dsimp only at h
    by_cases hlen : rest.length ≠ w.val
    · rw [if_pos hlen] at h
      exact absurd h (by simp)
    · rw [if_neg hlen] at h
      rcases hres : decodeScan w.val rest 0 [] with ⟨idx, instrs⟩ | e | m <;>
        rw [hres] at h
      · dsimp only at h
        unfold decodeFinish at h
        by_cases hidx : idx ≠ w.val
        · rw [if_pos hidx] at h
          exact absurd h (by simp)
        · rw [if_neg hidx] at h
          obtain ⟨extra, hextra⟩ :=
            decodeScan_chunks w.val rest.length rest 0 [] instrs idx (Nat.le_refl _) hres
          injection h with h2
          rw [← h2]
          rw [List.nil_append] at hextra
          rw [hextra]
          exact chunksWf_flatMap extra
      · exact absurd h (by simp)
      · exact absurd h (by simp)

/-- The positions of an instruction sequence at which an instruction begins: slot 0,
and from each such position the next one lies `size()` slots further — exactly the
positions the instruction pointer can reach by sequential execution and the
positions visited by `InstructionIter`. -/
inductive Aligned (l : List Instruction) : Nat → Prop where
  | zero : Aligned l 0
  | step (j : Nat) (ins : Instruction) :
      Aligned l j → l[j]? = some ins → Aligned l (j + ins.size)

theorem dupExpand_head (i : Instruction) (t : List Instruction) :
    (dupExpand i ++ t)[0]? = some i := by
  cases hi : i.has_arg
  · rw [dupExpand_noarg i hi]; simp
  · rw [dupExpand_arg i hi]; simp

theorem aligned_dupExpand_inv (i : Instruction) (t : List Instruction) (j : Nat)
    (h : Aligned (dupExpand i ++ t) j) :
    j = 0 ∨ (i.size ≤ j ∧ Aligned t (j - i.size)) := by
  induction h with
  | zero => left; rfl
  | step j0 ins halign hget ih =>
    rcases ih with rfl | ⟨hle, halign2⟩
    · right
      have hins : ins = i := by
        rw [dupExpand_head i t] at hget
        exact (Option.some.inj hget).symm
      subst hins
      constructor
      · omega
      · rw [Nat.zero_add, Nat.sub_self]
        exact Aligned.zero
    · right
      have hget2 : t[j0 - i.size]? = some ins := by
        rw [List.getElem?_append_right (by rw [dupExpand_length]; exact hle)] at hget
        rwa [dupExpand_length] at hget
      constructor
      · omega
      · have heq : j0 + ins.size - i.size = (j0 - i.size) + ins.size := by omega
        rw [heq]
        exact Aligned.step _ _ halign2 hget2

theorem blocks_aligned_dup (input : List Instruction) :
    ∀ (j : Nat) (ins : Instruction),
      Aligned (input.flatMap dupExpand) j →
      (input.flatMap dupExpand)[j]? = some ins →
      ins.has_arg = true →
      (input.flatMap dupExpand)[j + 1]? = some ins := by
  induction input with
  | nil =>
    intro j ins halign hget _
    simp at hget
  | cons i rest ih =>
    intro j ins halign hget hha
    rw [List.flatMap_cons] at halign hget ⊢
    rcases aligned_dupExpand_inv i (rest.flatMap dupExpand) j halign with rfl | ⟨hle, halign2⟩
    · have hins : ins = i := by
        rw [dupExpand_head] at hget
        exact (Option.some.inj hget).symm
      rw [hins] at hha ⊢
      rw [dupExpand_arg i hha]
      simp
    · have hget2 : (rest.flatMap dupExpand)[j - i.size]? = some ins := by
        rw [List.getElem?_append_right (by rw [dupExpand_length]; exact hle)] at hget
        rwa [dupExpand_length] at hget
      rw [List.getElem?_append_right (by rw [dupExpand_length]; omega)]
      rw [dupExpand_length]
      have heq : j + 1 - i.size = (j - i.size) + 1 := by omega
      rw [heq]
      exact ih (j - i.size) ins halign2 hget2 hha

/-- C4 counterexample: the duplication property quantified over *every* position
fails on `Program::new [push 3]` — slot 1 holds the argument-carrying duplicate,
`has_arg()` is true there, yet no slot 2 exists.  (The invariant holds only at
positions where an instruction begins.) -/
theorem dup_invariant_counterexample :
    ¬ (∀ (j : Nat) (ins : Instruction),
        (Program.new [Instruction.push (BFieldElement.new 3)]).instructions[j]? = some ins →
        ins.has_arg = true →
        (Program.new [Instruction.push (BFieldElement.new 3)]).instructions[j + 1]?
          = some ins) := by
  intro h
  have h1 := h 1 (.push (BFieldElement.new 3)) (by decide) (by decide)
  exact absurd h1 (by decide)

/-- C4 (amended): every Program produced by `Program::new` and every Program
returned by a successful `Program::decode` satisfies the duplication invariant at
every *aligned* position — wherever an instruction begins, if it carries an
argument the next slot exists and holds the same instruction.  (At the second slot
of an argument-carrying instruction, a position where no instruction begins, the
property can fail, as the counterexample shows.) -/
theorem dup_invariant_holds :
    (∀ (input : List Instruction) (j : Nat) (ins : Instruction),
      Aligned (Program.new input).instructions j →
      (Program.new input).instructions[j]? = some ins →
      ins.has_arg = true →
      (Program.new input).instructions[j + 1]? = some ins)
    ∧ (∀ (sequence : List BFieldElement) (p : Program) (j : Nat) (ins : Instruction),
      Program.decode sequence = .ok p →
      Aligned p.instructions j →
      p.instructions[j]? = some ins →
      ins.has_arg = true →
      p.instructions[j + 1]? = some ins) := by
  constructor
  · intro input j ins halign hget hha
    rw [Program.new_eq] at halign hget ⊢
    exact blocks_aligned_dup input j ins halign hget hha
  · intro sequence p j ins hdec halign hget hha
    obtain ⟨input, hinput⟩ := chunksWf_exists _ (decode_chunksWf sequence p hdec)
    rw [hinput] at halign hget ⊢
    exact blocks_aligned_dup input j ins halign hget hha

/-- Witness for C4's amended invariant: both conjuncts at slot 0 of the two-slot
program `[push 3]`, built by `new` and recovered by `decode`. -/
theorem dup_invariant_holds_witness :
    (Program.new [Instruction.push (BFieldElement.new 3)]).instructions[0 + 1]?
        = some (Instruction.push (BFieldElement.new 3))
    ∧ (Program.new [Instruction.push (BFieldElement.new 3)]).instructions[0 + 1]?
        = some (Instruction.push (BFieldElement.new 3)) :=
  ⟨dup_invariant_holds.1 [Instruction.push (BFieldElement.new 3)] 0
      (.push (BFieldElement.new 3)) Aligned.zero (by decide) (by decide),
   dup_invariant_holds.2
      ((Program.new [Instruction.push (BFieldElement.new 3)]).encode)
      (Program.new [Instruction.push (BFieldElement.new 3)]) 0
      (.push (BFieldElement.new 3)) (by decide) Aligned.zero (by decide) (by decide)⟩

/-- C8: for every Program satisfying the duplication invariant, `to_bwords` is the
duplicate-free wire form — the iterator's logical instructions flat-mapped to one
opcode word plus one argument word for argument carriers — and its length equals
`len_bwords()`, which equals the in-memory slot count `instructions.len()`. -/
theorem to_bwords_wire_form (p : Program) (h : ChunksWf p.instructions) :
    p.to_bwords = (instructionSeq p.instructions).flatMap wireOf
    ∧ p.to_bwords.length = p.len_bwords
    ∧ p.len_bwords = p.instructions.length := by
  refine ⟨Program.to_bwords_eq p, ?_, rfl⟩
  obtain ⟨input, hinput⟩ := chunksWf_exists _ h
  rw [Program.to_bwords_eq, Program.len_bwords, hinput, instructionSeq_new,
    wire_dup_length]

/-- Witness for C8 at the program `[push 3, halt]`: three slots, three wire
words. -/
theorem to_bwords_wire_form_witness :
    (Program.new [Instruction.push (BFieldElement.new 3), Instruction.halt]).to_bwords.length
      = (Program.new [Instruction.push (BFieldElement.new 3), Instruction.halt]).len_bwords :=
  (to_bwords_wire_form (Program.new [Instruction.push (BFieldElement.new 3), Instruction.halt])
    (chunksWf_flatMap [Instruction.push (BFieldElement.new 3), Instruction.halt])).2.1

theorem sum_set_succ (l : List Nat) :
    ∀ (i : Nat), i < l.length →
      (l.set i (l.getD i 0 + 1)).sum = l.sum + 1 := by
  induction l with
  | nil => intro i hi; simp at hi
  | cons a t ih =>
    intro i hi
    cases i with
    | zero => simp [List.set, List.getD]; omega
    | succ i =>
      simp only [List.set, List.getD_cons_succ, List.sum_cons]
      rw [ih i (by simp at hi; omega)]
      omega

theorem getD_set_succ (l : List Nat) :
    ∀ (i : Nat), i < l.length →
      (l.set i (l.getD i 0 + 1)).getD i 0 = l.getD i 0 + 1 := by
  induction l with
  | nil => intro i hi; simp at hi
  | cons a t ih =>
    intro i hi
    cases i with
    | zero => simp [List.set, List.getD]
    | succ i =>
      simp only [List.set, List.getD_cons_succ]
      exact ih i (by simp at hi; omega)

theorem traceCycle_ok (aet : AlgebraicExecutionTrace) (s : VMState)
    (aet' : AlgebraicExecutionTrace) (s' : VMState)
    (h : traceCycle aet s = .ok (aet', s')) :
    (∃ c, s.step = .ok (s', c))
    ∧ aet'.instruction_multiplicities.sum = aet.instruction_multiplicities.sum + 1
    ∧ aet'.instruction_multiplicities.getD s.instruction_pointer 0
        = aet.instruction_multiplicities.getD s.instruction_pointer 0 + 1 := by
  unfold traceCycle at h
  rcases hrec : aet.record_state s with e | aet1 <;> rw [hrec] at h
  · exact absurd h (by simp)
  · dsimp only at h
    have haet1 : aet1.instruction_multiplicities = aet.instruction_multiplicities := by
      unfold AlgebraicExecutionTrace.record_state at hrec
      by_cases hip : s.instruction_pointer < aet.instruction_multiplicities.length
      · rw [if_pos hip] at hrec
        injection hrec with h2
        rw [← h2]
      · rw [if_neg hip] at hrec
        exact absurd hrec (by simp)
    by_cases hip : s.instruction_pointer < aet1.instruction_multiplicities.length
    · rw [if_pos hip] at h
      rcases hstep : s.step with e | ⟨s1, call⟩ <;> rw [hstep] at h
      · exact absurd h (by simp)
      · cases call with
        | none =>
          dsimp only at h
          injection h with h2
          injection h2 with h3 h4
          rw [← h3, ← h4]
          refine ⟨⟨none, rfl⟩, ?_, ?_⟩
          · dsimp only
            rw [haet1] at hip ⊢
            exact sum_set_succ _ _ hip
          · dsimp only
            rw [haet1] at hip ⊢
            exact getD_set_succ _ _ hip
        | some c =>
          dsimp only at h
          injection h with h2
          injection h2 with h3 h4
          rw [← h3, ← h4]
          refine ⟨⟨some c, rfl⟩, ?_, ?_⟩
          · dsimp only [AlgebraicExecutionTrace.record_co_processor_call]
            rw [haet1] at hip ⊢
            exact sum_set_succ _ _ hip
          · dsimp only [AlgebraicExecutionTrace.record_co_processor_call]
            rw [haet1] at hip ⊢
            exact getD_set_succ _ _ hip
    · rw [if_neg hip] at h
      exact absurd h (by simp)

theorem traceLoop_run (fuel : Nat) :
    ∀ (aet : AlgebraicExecutionTrace) (s : VMState)
      (aetF : AlgebraicExecutionTrace) (sF : VMState),
      traceLoop fuel aet s = .ok (aetF, sF) →
      runLoop fuel s = .ok sF
      ∧ aetF.instruction_multiplicities.sum + s.cycle_count
          = aet.instruction_multiplicities.sum + sF.cycle_count := by
  induction fuel with
  | zero =>
    intro aet s aetF sF h
    unfold traceLoop at h
    unfold runLoop
    by_cases hh : s.halting
    · rw [if_pos hh] at h
      rw [if_pos hh]
      injection h with h2
      injection h2 with h3 h4
      rw [← h3, ← h4]
      exact ⟨rfl, rfl⟩
    · rw [if_neg hh] at h
      exact absurd h (by simp)
  | succ n ih =>
    intro aet s aetF sF h
    unfold traceLoop at h
    unfold runLoop
    by_cases hh : s.halting
    · rw [if_pos hh] at h
      rw [if_pos hh]
      injection h with h2
      injection h2 with h3 h4
      rw [← h3, ← h4]
      exact ⟨rfl, rfl⟩
    · rw [if_neg hh] at h
      rw [if_neg hh]
      rcases hcyc : traceCycle aet s with e | ⟨aet1, s1⟩ <;> rw [hcyc] at h
      · exact absurd h (by simp)
      · dsimp only at h
        obtain ⟨⟨c, hstep⟩, hsum, _⟩ := traceCycle_ok aet s aet1 s1 hcyc
        obtain ⟨hrun, hsum2⟩ := ih aet1 s1 aetF sF h
        rw [hstep]
        refine ⟨hrun, ?_⟩
        have hc := VMState.step_cycle s s1 c hstep
        omega

/-- C2: whenever `trace_execution` succeeds, the sum of the returned AET's
`instruction_multiplicities` equals the final cycle count of the equivalent `run`
call (the number of steps taken, since both start at cycle 0), and `run` succeeds
with the same public output.  Moreover each loop cycle — `record_state` followed by
the inline multiplicity update, both before the step — increments the multiplicity
of the slot under the instruction pointer by exactly one, and the total by exactly
one. -/
theorem trace_execution_multiplicities :
    (∀ (fuel : Nat) (p : Program) (publicInput secretInput : List BFieldElement)
       (aet : AlgebraicExecutionTrace) (out : List BFieldElement),
      Program.trace_execution fuel p publicInput secretInput = .ok (aet, out) →
      ∃ sF : VMState,
        runLoop fuel (VMState.new p publicInput secretInput) = .ok sF
        ∧ aet.instruction_multiplicities.sum = sF.cycle_count
        ∧ Program.run fuel p publicInput secretInput = .ok out
        ∧ sF.public_output = out)
    ∧ (∀ (aet : AlgebraicExecutionTrace) (s : VMState)
         (aet' : AlgebraicExecutionTrace) (s' : VMState),
      traceCycle aet s = .ok (aet', s') →
      aet'.instruction_multiplicities.sum = aet.instruction_multiplicities.sum + 1
      ∧ aet'.instruction_multiplicities.getD s.instruction_pointer 0
          = aet.instruction_multiplicities.getD s.instruction_pointer 0 + 1) := by
  constructor
  · intro fuel p publicInput secretInput aet out h
    unfold Program.trace_execution at h
    rcases hloop : traceLoop fuel (AlgebraicExecutionTrace.new p)
        (VMState.new p publicInput secretInput) with ⟨aetF, sF⟩ | e | _ <;>
      rw [hloop] at h
    · dsimp only at h
      injection h with h2
      injection h2 with h3 h4
      obtain ⟨hrun, hsum⟩ := traceLoop_run fuel _ _ _ _ hloop
      refine ⟨sF, hrun, ?_, ?_, ?_⟩
      · rw [← h3]
        have hnew : (AlgebraicExecutionTrace.new p).instruction_multiplicities.sum = 0 := by
          simp [AlgebraicExecutionTrace.new]
        have hcyc0 : (VMState.new p publicInput secretInput).cycle_count = 0 := rfl
        omega
      · unfold Program.run
        rw [hrun]
        dsimp only
        rw [h4]
      · exact h4
    · exact absurd h (by simp)
    · exact absurd h (by simp)
  · intro aet s aet' s' h
    exact (traceCycle_ok aet s aet' s' h).2

theorem debug_rel (maxCycles : Nat) :
    ∀ (fuel : Nat) (acc : List VMState) (s : VMState),
      ((debugLoop maxCycles fuel acc s).2
        = match debugTerminalLoop maxCycles fuel s with
          | .ok _ => none
          | .error (e, _) => some e)
      ∧ ((debugLoop maxCycles fuel acc s).1.getLast?
        = some (match debugTerminalLoop maxCycles fuel s with
          | .ok sf => sf
          | .error (_, prev) => prev)) := by
  intro fuel
  induction fuel with
  | zero =>
    intro acc s
    unfold debugLoop debugTerminalLoop
    exact ⟨rfl, by simp⟩
  | succ n ih =>
    intro acc s
    unfold debugLoop debugTerminalLoop
    by_cases hguard : s.halting = false ∧ s.cycle_count < maxCycles
    · rw [if_pos hguard, if_pos hguard]
      rcases hstep : s.step with e | ⟨s1, c⟩
      · exact ⟨rfl, by simp⟩
      · exact ih (acc ++ [s]) s1
    · rw [if_neg hguard, if_neg hguard]
      exact ⟨rfl, by simp⟩

/-- C3 counterexample (against "second-to-last"): for `[nop, assert]` with empty
inputs the second step fails; `debug` returns the snapshots `[s0, s1]` (the state
before each attempted step) and `debug_terminal_state` returns `s1` — the *last*
snapshot `debug` produced, not the second-to-last one (`s0`, which differs from
`s1`). -/
theorem debug_terminal_counterexample :
    (Program.debug (Program.new [.nop, .assert]) [] [] none none).1
        = [VMState.new (Program.new [.nop, .assert]) [] [],
           { VMState.new (Program.new [.nop, .assert]) [] [] with
               instruction_pointer := 1, cycle_count := 1 }]
    ∧ Program.debug_terminal_state (Program.new [.nop, .assert]) [] [] none none
        = .error ("Operational stack too shallow.",
            { VMState.new (Program.new [.nop, .assert]) [] [] with
                instruction_pointer := 1, cycle_count := 1 })
    ∧ ({ VMState.new (Program.new [.nop, .assert]) [] [] with
          instruction_pointer := 1, cycle_count := 1 } : VMState)
        ≠ VMState.new (Program.new [.nop, .assert]) [] [] := by
  refine ⟨by decide, by decide, by decide⟩

/-- C3 (amended): for every program, inputs, optional initial state and optional
cycle budget, `debug_terminal_state`'s result agrees with `debug`'s: on success the
returned state is the *last* element of `debug`'s snapshot sequence (with no error
reported); on failure the returned state is likewise the *last* snapshot `debug`
would have produced — the state snapshotted just before the failing step — paired
with the same error.  (The original claim's "second-to-last" is refuted by the
counterexample.) -/
theorem debug_terminal_state_matches_debug
    (p : Program) (publicInput secretInput : List BFieldElement)
    (initialState : Option VMState) (numCyclesToExecute : Option Nat) :
    (∀ sf, Program.debug_terminal_state p publicInput secretInput initialState
        numCyclesToExecute = .ok sf →
      (Program.debug p publicInput secretInput initialState numCyclesToExecute).2 = none
      ∧ (Program.debug p publicInput secretInput initialState
          numCyclesToExecute).1.getLast? = some sf)
    ∧ (∀ e prev, Program.debug_terminal_state p publicInput secretInput initialState
        numCyclesToExecute = .error (e, prev) →
      (Program.debug p publicInput secretInput initialState numCyclesToExecute).2 = some e
      ∧ (Program.debug p publicInput secretInput initialState
          numCyclesToExecute).1.getLast? = some prev) := by
  have hrel := debug_rel
    (maxCyclesOf (initialStateOf p publicInput secretInput initialState) numCyclesToExecute)
    (maxCyclesOf (initialStateOf p publicInput secretInput initialState) numCyclesToExecute
      - (initialStateOf p publicInput secretInput initialState).cycle_count)
    [] (initialStateOf p publicInput secretInput initialState)
  constructor
  · intro sf hok
    unfold Program.debug_terminal_state at hok
    unfold Program.debug
    rw [hok] at hrel
    exact hrel
  · intro e prev herr
    unfold Program.debug_terminal_state at herr
    unfold Program.debug
    rw [herr] at hrel
    exact hrel

/-- Witness for C3's amended equivalence: the one-instruction program `halt` under
a budget of 5 cycles halts after one step; `debug` reports no error and its last
snapshot is the terminal state. -/
theorem debug_terminal_state_matches_debug_witness :
    (Program.debug (Program.new [.halt]) [] [] none (some 5)).2 = none
    ∧ (Program.debug (Program.new [.halt]) [] [] none (some 5)).1.getLast?
        = some { VMState.new (Program.new [.halt]) [] [] with
            instruction_pointer := 1, cycle_count := 1, halting := true } :=
  (debug_terminal_state_matches_debug (Program.new [.halt]) [] [] none (some 5)).1
    { VMState.new (Program.new [.halt]) [] [] with
        instruction_pointer := 1, cycle_count := 1, halting := true }
    (by decide)

theorem debugLoop_length (maxCycles : Nat) :
    ∀ (fuel : Nat) (acc : List VMState) (s : VMState),
      (debugLoop maxCycles fuel acc s).1.length ≤ acc.length + fuel + 1 := by
  intro fuel
  induction fuel with
  | zero =>
    intro acc s
    unfold debugLoop
    simp
  | succ n ih =>
    intro acc s
    unfold debugLoop
    by_cases hguard : s.halting = false ∧ s.cycle_count < maxCycles
    · rw [if_pos hguard]
      rcases hstep : s.step with e | ⟨s1, c⟩
      · simp
      · have := ih (acc ++ [s]) s1
        simp at this ⊢
        omega
    · rw [if_neg hguard]
      simp

theorem debugTerminalLoop_cycle (maxCycles : Nat) :
    ∀ (fuel : Nat) (s : VMState),
      (∀ sf, debugTerminalLoop maxCycles fuel s = .ok sf →
        sf.cycle_count ≤ s.cycle_count + fuel)
      ∧ (∀ e prev, debugTerminalLoop maxCycles fuel s = .error (e, prev) →
        prev.cycle_count ≤ s.cycle_count + fuel) := by
  intro fuel
  induction fuel with
  | zero =>
    intro s
    unfold debugTerminalLoop
    constructor
    · intro sf hok
      injection hok with h2
      rw [← h2]
      omega
    · intro e prev herr
      exact absurd herr (by simp)
  | succ n ih =>
    intro s
    unfold debugTerminalLoop
    by_cases hguard : s.halting = false ∧ s.cycle_count < maxCycles
    · rw [if_pos hguard]
      rcases hstep : s.step with e | ⟨s1, c⟩
      · constructor
        · intro sf hok
          exact absurd hok (by simp)
        · intro e2 prev herr
          injection herr with h2
          injection h2 with h3 h4
          rw [← h4]
          omega
      · have hc := VMState.step_cycle s s1 c hstep
        constructor
        · intro sf hok
          have := (ih s1).1 sf hok
          omega
        · intro e2 prev herr
          have := (ih s1).2 e2 prev herr
          omega
    · rw [if_neg hguard]
      constructor
      · intro sf hok
        injection hok with h2
        rw [← h2]
        omega
      · intro e2 prev herr
        exact absurd herr (by simp)

/-- C9: in `debug` and `debug_terminal_state` the cycle bound is `u32::MAX`
(4294967295) when no cycle count is supplied — a hard infinite-loop guard — and the
initial state's cycle count plus `n` when `Some n` is supplied, so at most `n`
further steps run: `debug` collects at most `n + 1` snapshots and
`debug_terminal_state` returns a state at most `n` cycles past the initial one;
under the default bound the snapshot count is limited by the guard as well. -/
theorem Program.debug_def (p : Program) (publicInput secretInput : List BFieldElement)
    (initialState : Option VMState) (numCyclesToExecute : Option Nat) :
    Program.debug p publicInput secretInput initialState numCyclesToExecute
      = debugLoop (maxCyclesOf (initialStateOf p publicInput secretInput initialState)
            numCyclesToExecute)
          (maxCyclesOf (initialStateOf p publicInput secretInput initialState)
              numCyclesToExecute
            - (initialStateOf p publicInput secretInput initialState).cycle_count)
          [] (initialStateOf p publicInput secretInput initialState) := rfl

theorem cycle_budget_bounds :
    (∀ s : VMState, maxCyclesOf s none = 4294967295)
    ∧ (∀ (s : VMState) (n : Nat), maxCyclesOf s (some n) = s.cycle_count + n)
    ∧ (∀ (p : Program) (publicInput secretInput : List BFieldElement)
         (initialState : Option VMState) (n : Nat),
        (Program.debug p publicInput secretInput initialState (some n)).1.length ≤ n + 1)
    ∧ (∀ (p : Program) (publicInput secretInput : List BFieldElement)
         (initialState : Option VMState) (n : Nat) (sf : VMState),
        Program.debug_terminal_state p publicInput secretInput initialState (some n)
            = .ok sf →
        sf.cycle_count
          ≤ (initialStateOf p publicInput secretInput initialState).cycle_count + n)
    ∧ (∀ (p : Program) (publicInput secretInput : List BFieldElement)
         (initialState : Option VMState),
        (Program.debug p publicInput secretInput initialState none).1.length
          ≤ (4294967295 - (initialStateOf p publicInput secretInput initialState).cycle_count)
            + 1) := by
  refine ⟨fun s => rfl, fun s n => rfl, ?_, ?_, ?_⟩
  · intro p publicInput secretInput initialState n
    rw [Program.debug_def]
    have := debugLoop_length
      (maxCyclesOf (initialStateOf p publicInput secretInput initialState) (some n))
      (maxCyclesOf (initialStateOf p publicInput secretInput initialState) (some n)
        - (initialStateOf p publicInput secretInput initialState).cycle_count)
      [] (initialStateOf p publicInput secretInput initialState)
    have hmax : maxCyclesOf (initialStateOf p publicInput secretInput initialState) (some n)
        = (initialStateOf p publicInput secretInput initialState).cycle_count + n := rfl
    simp at this
    omega
  · intro p publicInput secretInput initialState n sf hok
    unfold Program.debug_terminal_state at hok
    have := (debugTerminalLoop_cycle
      (maxCyclesOf (initialStateOf p publicInput secretInput initialState) (some n))
      (maxCyclesOf (initialStateOf p publicInput secretInput initialState) (some n)
        - (initialStateOf p publicInput secretInput initialState).cycle_count)
      (initialStateOf p publicInput secretInput initialState)).1 sf hok
    have hmax : maxCyclesOf (initialStateOf p publicInput secretInput initialState) (some n)
        = (initialStateOf p publicInput secretInput initialState).cycle_count + n := rfl
    omega
  · intro p publicInput secretInput initialState
    rw [Program.debug_def]
    have := debugLoop_length
      (maxCyclesOf (initialStateOf p publicInput secretInput initialState) none)
      (maxCyclesOf (initialStateOf p publicInput secretInput initialState) none
        - (initialStateOf p publicInput secretInput initialState).cycle_count)
      [] (initialStateOf p publicInput secretInput initialState)
    have hmax : maxCyclesOf (initialStateOf p publicInput secretInput initialState) none
        = 4294967295 := rfl
    simp at this
    omega

/-- Witness for C9: the default bound at a fresh state, the explicit bound, the
snapshot bound for `halt` under a budget of 2, and the cycle bound of its terminal
state. -/
theorem cycle_budget_bounds_witness :
    maxCyclesOf (VMState.new (Program.new [.halt]) [] []) none = 4294967295
    ∧ maxCyclesOf (VMState.new (Program.new [.halt]) [] []) (some 7)
        = (VMState.new (Program.new [.halt]) [] []).cycle_count + 7
    ∧ (Program.debug (Program.new [.halt]) [] [] none (some 2)).1.length ≤ 2 + 1
    ∧ ({ VMState.new (Program.new [.halt]) [] [] with
          instruction_pointer := 1, cycle_count := 1, halting := true } : VMState).cycle_count
        ≤ (initialStateOf (Program.new [.halt]) [] [] none).cycle_count + 2 :=
  ⟨cycle_budget_bounds.1 (VMState.new (Program.new [.halt]) [] []),
   cycle_budget_bounds.2.1 (VMState.new (Program.new [.halt]) [] []) 7,
   cycle_budget_bounds.2.2.1 (Program.new [.halt]) [] [] none 2,
   cycle_budget_bounds.2.2.2.1 (Program.new [.halt]) [] [] none 2
     { VMState.new (Program.new [.halt]) [] [] with
         instruction_pointer := 1, cycle_count := 1, halting := true }
     (by decide)⟩

/-- Witness for C2 at `[nop, halt]`: tracing succeeds with multiplicities `[1, 1]`
summing to the 2 cycles the equivalent run executes, and the first trace cycle
bumps slot 0 from 0 to 1. -/
theorem trace_execution_multiplicities_witness :
    (∃ sF : VMState,
      runLoop 4 (VMState.new (Program.new [.nop, .halt]) [] []) = RunResult.ok sF
      ∧ ([1, 1] : List Nat).sum = sF.cycle_count
      ∧ Program.run 4 (Program.new [.nop, .halt]) [] [] = RunResult.ok []
      ∧ sF.public_output = [])
    ∧ (([1, 0] : List Nat).sum = ([0, 0] : List Nat).sum + 1
      ∧ ([1, 0] : List Nat).getD 0 0 = ([0, 0] : List Nat).getD 0 0 + 1) :=
  ⟨trace_execution_multiplicities.1 4 (Program.new [.nop, .halt]) [] []
     { program := Program.new [.nop, .halt], instruction_multiplicities := [1, 1],
       co_processor_calls := [], processor_rows := [(0, 0), (1, 1)] } [] (by decide),
   trace_execution_multiplicities.2
     (AlgebraicExecutionTrace.new (Program.new [.nop, .halt]))
     (VMState.new (Program.new [.nop, .halt]) [] [])
     { program := Program.new [.nop, .halt], instruction_multiplicities := [1, 0],
       co_processor_calls := [], processor_rows := [(0, 0)] }
     { VMState.new (Program.new [.nop, .halt]) [] [] with
         instruction_pointer := 1, cycle_count := 1 }
     (by decide)⟩
